import Mathlib

/-!
Verification development for the `git-puller` tool (`git-puller.go`).

The program walks a directory tree with `filepath.Walk`, spawns one goroutine
per discovered repository root (a directory containing a `.git` subdirectory),
probes the remote with `git -C <dir> remote -v`, pulls with `git -C <dir> pull`,
and records rows `[dir, remote, status]` in a mutex-guarded slice `summary`.

The shallow embedding below models:
  * strings as `List Char` and filesystem paths as `List String` (segments);
  * `strings.Split(s, "\n")`, `strings.TrimSpace`, `strings.Fields` from Go's
    standard library, as used by `getGitStatus`;
  * `getGitStatus` with the subprocess result abstracted as
    `Option (List Char)` (`none` = `cmd.Output()` returned an error);
  * `updateStatus` and `pullRepository` acting on an explicit summary state,
    with the two subprocess invocations recorded in a command trace;
  * `filepath.Walk` with the `visit` callback (including the `SkipDir`
    semantics: returning `SkipDir` for a directory prunes only that
    directory's own contents);
  * the interleaved executions of the per-repository goroutines as explicit
    schedules of mutex-protected append/update operations;
  * the exit-code behaviour of `main`/`setupLogger`/cobra argument checking.
-/

/-- Go `unicode.IsSpace`: the White_Space code points (ASCII spaces plus the
Latin-1 and Unicode space characters). -/
def goIsSpace (c : Char) : Bool :=
  c = ' ' || c = '\t' || c = '\n' || c = '\x0b' || c = '\x0c' || c = '\r' ||
  c.val = 0x85 || c.val = 0xA0 || c.val = 0x1680 ||
  (0x2000 ≤ c.val && c.val ≤ 0x200A) ||
  c.val = 0x2028 || c.val = 0x2029 || c.val = 0x202F || c.val = 0x205F ||
  c.val = 0x3000

/-- Go `strings.Split(s, "\n")`: splits at every newline; the empty string
yields `[[]]`, so the result is never the empty list. -/
def splitNL : List Char → List (List Char)
  | [] => [[]]
  | c :: cs =>
    if c = '\n' then [] :: splitNL cs
    else
      match splitNL cs with
      | [] => [[c]]
      | l :: ls => (c :: l) :: ls

/-- Go `strings.TrimSpace`: drop Unicode whitespace from both ends. -/
def trimSpace (l : List Char) : List Char :=
  ((l.dropWhile goIsSpace).reverse.dropWhile goIsSpace).reverse

/-- Accumulator worker for `fields`: `acc` holds the current in-progress field,
reversed. -/
def fieldsAux : List Char → List Char → List (List Char)
  | [], acc => if acc = [] then [] else [acc.reverse]
  | c :: cs, acc =>
    if goIsSpace c then
      if acc = [] then fieldsAux cs [] else acc.reverse :: fieldsAux cs []
    else fieldsAux cs (c :: acc)

/-- Go `strings.Fields`: split around runs of whitespace; no empty fields. -/
def fields (l : List Char) : List (List Char) :=
  fieldsAux l []

/-- The first line of a command output, i.e. `lines[0]` after
`strings.Split(output, "\n")` (defined because `splitNL` never returns `[]`,
mirroring the unreachable `len(lines) < 1` guard in the source). -/
def firstLine (l : List Char) : List Char :=
  match splitNL l with
  | [] => []
  | line0 :: _ => line0

/-- Status string `"Pending"`. -/
def pendingS : List Char := "Pending".toList

/-- Status string `"Unknown"`. -/
def unknownS : List Char := "Unknown".toList

/-- Status string `"Success"`. -/
def successS : List Char := "Success".toList

/-- Status string `"Failed"`. -/
def failedS : List Char := "Failed".toList

/-- `getGitStatus` from the source. The result of
`exec.Command("git", "-C", dir, "remote", "-v").Output()` is abstracted as an
`Option (List Char)`: `none` models the error case. The body mirrors the
source line by line: split output on newlines, guard `len(lines) < 1`
(the `[]` branch, unreachable), trim the first line, split it into fields;
the `len(remoteParts) != 3` guard followed by `remoteParts[1]` is rendered
as a three-element pattern match returning the middle field. -/
def getGitStatus (cmdOutput : Option (List Char)) : List Char × List Char :=
  match cmdOutput with
  | none => ([], unknownS)
  | some output =>
    match splitNL output with
    | [] => ([], unknownS)
    | line0 :: _ =>
      let remoteLine := trimSpace line0
      let remoteParts := fields remoteLine
      match remoteParts with
      | [_, remote, _] => (remote, pendingS)
      | _ => ([], unknownS)

/-- One row of `g.summary`: the code appends `[]string{dir, remote, status}`,
so `path` is `row[0]`, `remote` is `row[1]`, `status` is `row[2]`. -/
structure RepoRecord where
  path : List String
  remote : List Char
  status : List Char
deriving DecidableEq

/-- `updateStatus` from the source: overwrite the status of the first row
whose `row[0]` equals `dir`, then `break`; rows after the first match and the
whole list on no match are untouched. -/
def updateStatus (dir : List String) (status : List Char) :
    List RepoRecord → List RepoRecord
  | [] => []
  | row :: rest =>
    if row.path = dir then { row with status := status } :: rest
    else row :: updateStatus dir status rest

/-- The two subprocess invocations a repository task performs. -/
inductive GitCmd where
  | remoteV (dir : List String)
  | pull (dir : List String)
deriving DecidableEq

/-- The summary state right after the `append` in `pullRepository`
(lines 101–104 of the source): the record is created from the probe result
and appended under the mutex. `probe` abstracts the outcome of the
`git remote -v` subprocess for each directory. -/
def pullRepositoryMid (probe : List String → Option (List Char))
    (s : List RepoRecord) (dir : List String) : List RepoRecord :=
  let rs := getGitStatus (probe dir)
  s ++ [⟨dir, rs.1, rs.2⟩]

/-- `pullRepository` from the source, as a function of the summary state:
probe the remote (`git -C dir remote -v`), append the new row, run
`git -C dir pull` (its success abstracted as `pullOk dir`), then call
`updateStatus` with `"Success"` when the pull succeeded and `"Failed"` when
`cmd.Run()` returned an error. The first component records the subprocess
trace of the task. -/
def pullRepository (probe : List String → Option (List Char))
    (pullOk : List String → Bool) (s : List RepoRecord) (dir : List String) :
    List GitCmd × List RepoRecord :=
  let s1 := pullRepositoryMid probe s dir
  ([GitCmd.remoteV dir, GitCmd.pull dir],
    if pullOk dir then updateStatus dir successS s1
    else updateStatus dir failedS s1)

/-- A filesystem tree: either a plain file or a directory with a list of
children. Sibling order is the order `filepath.Walk` visits them in. -/
inductive FSTree where
  | file (name : String)
  | dir (name : String) (children : List FSTree)

/-- The base name of an entry (`info.Name()`). -/
def fsName : FSTree → String
  | .file n => n
  | .dir n _ => n

mutual

/-- `filepath.Walk` run with the `visit` callback, returning the list of
repository paths for which `go g.pullRepository(repoDir)` is spawned.
`pre` is the path of the entry's parent as segments, so the entry's own path
is `pre ++ [name]` and `filepath.Dir(path)` is `pre`. A `.git` directory
makes `visit` spawn a task for `pre` and return `filepath.SkipDir`, which
makes `Walk` skip that directory's own contents (and only those); every
other entry returns `nil` and traversal continues into the children. -/
def walkVisit (pre : List String) : FSTree → List (List String)
  | .file _ => []
  | .dir n children =>
    if n = ".git" then [pre]
    else walkList (pre ++ [n]) children

/-- The walk of a list of sibling entries, in order. -/
def walkList (pre : List String) : List FSTree → List (List String)
  | [] => []
  | c :: cs => walkVisit pre c ++ walkList pre cs

end

mutual

/-- A tree is well formed when every directory's children carry pairwise
distinct names, as on a real filesystem. -/
def wellFormed : FSTree → Bool
  | .file _ => true
  | .dir _ children =>
    decide (children.map fsName).Nodup && wellFormedList children

/-- `wellFormed` for each member of a list of entries. -/
def wellFormedList : List FSTree → Bool
  | [] => true
  | c :: cs => wellFormed c && wellFormedList cs

end

/-- The sequential composition of the spawned tasks in spawn order: the
concatenated subprocess trace and the final summary state. (Each task's own
trace and the set of records are interleaving-independent; the interleaved
executions themselves are modelled by `runSched` below.) -/
def runAll (probe : List String → Option (List Char))
    (pullOk : List String → Bool) :
    List (List String) → List RepoRecord → List GitCmd × List RepoRecord
  | [], s => ([], s)
  | d :: ds, s =>
    let r1 := pullRepository probe pullOk s d
    let r2 := runAll probe pullOk ds r1.2
    (r1.1 ++ r2.1, r2.2)

/-- Models `strings.ToLower` as applied by `logrus.ParseLevel` to the level
name, character by character. -/
def lowerStr (s : String) : String :=
  ⟨s.data.map Char.toLower⟩

/-- Models `logrus.ParseLevel` succeeding: the level string, lowercased, is
one of the fixed severity names logrus accepts. -/
def parseLevelOk (lvl : String) : Bool :=
  ["panic", "fatal", "error", "warn", "warning", "info", "debug",
    "trace"].contains (lowerStr lvl)

/-- The whole command flow as a function of the flag value, the positional
arguments, the tree and the per-repository subprocess outcomes. Returns the
process exit code and the summary that was accumulated before exiting:
`setupLogger` calls `os.Exit(1)` on an invalid `--log-level` (before
`Execute` runs, hence before any traversal); `cobra.ExactArgs(1)` makes
`Execute` fail on a wrong argument count and `main` then calls `os.Exit(1)`;
otherwise `run` walks the tree, performs every pull, absorbs every
per-repository failure into the summary, prints, and the process exits 0. -/
def programRun (logLevel : String) (args : List String) (tree : FSTree)
    (probe : List String → Option (List Char)) (pullOk : List String → Bool) :
    Nat × List RepoRecord :=
  if parseLevelOk logLevel = false then (1, [])
  else if args.length ≠ 1 then (1, [])
  else (0, (runAll probe pullOk (walkVisit [] tree) []).2)

/-- One mutex-protected critical section of goroutine `k`: its append
(source lines 102–104) or its status update (lines 112–114 / 116–118). -/
inductive SyncOp where
  | append (k : Nat)
  | update (k : Nat)
deriving DecidableEq

/-- The goroutine a critical section belongs to. -/
def SyncOp.idx : SyncOp → Nat
  | .append k => k
  | .update k => k

/-- What goroutine `k`, launched for directory `dirs k`, writes: the record
it appends (from the probe) and the status its update writes (from the
pull result), exactly as in `pullRepository`. -/
structure TaskSpec where
  dir : List String
  remote : List Char
  initStatus : List Char
  finalStatus : List Char
deriving DecidableEq

/-- The task for directory `d` under probe/pull outcomes, read off from
`pullRepository`. -/
def mkTask (probe : List String → Option (List Char))
    (pullOk : List String → Bool) (d : List String) : TaskSpec :=
  { dir := d
    remote := (getGitStatus (probe d)).1
    initStatus := (getGitStatus (probe d)).2
    finalStatus := if pullOk d then successS else failedS }

/-- Effect of one critical section on the shared summary. -/
def applyOp (tasks : Nat → TaskSpec) (s : List RepoRecord) :
    SyncOp → List RepoRecord
  | .append k =>
    s ++ [⟨(tasks k).dir, (tasks k).remote, (tasks k).initStatus⟩]
  | .update k => updateStatus (tasks k).dir (tasks k).finalStatus s

/-- Run a whole interleaving (the order in which the critical sections
acquired the mutex). -/
def runSched (tasks : Nat → TaskSpec) (sched : List SyncOp)
    (s : List RepoRecord) : List RepoRecord :=
  sched.foldl (applyOp tasks) s

/-- Program order within each goroutine: no `append k` occurs at or after an
`update k` (each task appends its record before updating it). -/
def noAppAfterUpd : List SyncOp → Bool
  | [] => true
  | op :: rest =>
    (match op with
      | .update k => !(SyncOp.append k ∈ rest)
      | .append _ => true) && noAppAfterUpd rest

/-- The summary state holding, for each goroutine `k` in the list `order`,
its record, updated or not according to `upd k`. -/
def stateOf (tasks : Nat → TaskSpec) (order : List Nat) (upd : Nat → Bool) :
    List RepoRecord :=
  order.map fun k =>
    ⟨(tasks k).dir, (tasks k).remote,
      if upd k then (tasks k).finalStatus else (tasks k).initStatus⟩

/-! ## Helper lemmas -/

theorem splitNL_ne_nil (l : List Char) : splitNL l ≠ [] := by
  cases l with
  | nil => simp [splitNL]
  | cons c cs =>
    simp only [splitNL]
    split
    · simp
    · cases splitNL cs <;> simp

theorem fieldsAux_ne_nil (l : List Char) :
    ∀ acc x, x ∈ fieldsAux l acc → x ≠ [] := by
  induction l with
  | nil =>
    intro acc x hx
    simp only [fieldsAux] at hx
    split at hx
    · simp at hx
    · rename_i hacc
      simp only [List.mem_singleton] at hx
      subst hx
      simpa using hacc
  | cons c cs ih =>
    intro acc x hx
    simp only [fieldsAux] at hx
    split at hx
    · split at hx
      · exact ih [] x hx
      · rename_i hacc
        rcases List.mem_cons.mp hx with h | h
        · subst h; simpa using hacc
        · exact ih [] x h
    · exact ih (c :: acc) x hx

theorem fieldsAux_dropWhile (l : List Char) :
    fieldsAux (l.dropWhile goIsSpace) [] = fieldsAux l [] := by
  induction l with
  | nil => rfl
  | cons c cs ih =>
    by_cases h : goIsSpace c
    · simp [List.dropWhile_cons, h, fieldsAux, ih]
    · simp [List.dropWhile_cons, h]

theorem fieldsAux_all_space (s : List Char)
    (hs : ∀ c ∈ s, goIsSpace c = true) (acc : List Char) :
    fieldsAux s acc = if acc = [] then [] else [acc.reverse] := by
  induction s generalizing acc with
  | nil => rfl
  | cons c cs ih =>
    have hc : goIsSpace c = true := hs c (by simp)
    have hcs : ∀ x ∈ cs, goIsSpace x = true := fun x hx => hs x (by simp [hx])
    simp only [fieldsAux, hc, if_true]
    split
    · exact ih hcs []
    · rw [ih hcs []]
      simp

theorem fieldsAux_append_space (s : List Char)
    (hs : ∀ c ∈ s, goIsSpace c = true) (l : List Char) :
    ∀ acc, fieldsAux (l ++ s) acc = fieldsAux l acc := by
  induction l with
  | nil =>
    intro acc
    simpa [fieldsAux] using fieldsAux_all_space s hs acc
  | cons c cs ih =>
    intro acc
    simp only [List.cons_append, fieldsAux, List.append_eq, ih]

theorem fields_trimSpace (l : List Char) :
    fields (trimSpace l) = fields l := by
  have h1 : fields l = fields (l.dropWhile goIsSpace) :=
    (fieldsAux_dropWhile l).symm
  set l1 := l.dropWhile goIsSpace with hl1
  have hdecomp : l1 = (l1.reverse.dropWhile goIsSpace).reverse ++
      (l1.reverse.takeWhile goIsSpace).reverse := by
    conv_lhs => rw [← List.reverse_reverse l1,
      ← List.takeWhile_append_dropWhile (p := goIsSpace) (l := l1.reverse)]
    rw [List.reverse_append]
  have hsp : ∀ c ∈ (l1.reverse.takeWhile goIsSpace).reverse,
      goIsSpace c = true := by
    intro c hc
    rw [List.mem_reverse] at hc
    exact List.mem_takeWhile_imp hc
  rw [h1]
  unfold fields trimSpace
  rw [← hl1]
  conv_rhs => rw [hdecomp]
  exact (fieldsAux_append_space _ hsp _ []).symm

theorem getGitStatus_none : getGitStatus none = ([], unknownS) := rfl

theorem getGitStatus_some_eq (out line0 : List Char) (rest : List (List Char))
    (hs : splitNL out = line0 :: rest) :
    getGitStatus (some out) =
      (match fields (trimSpace line0) with
        | [_, remote, _] => (remote, pendingS)
        | _ => ([], unknownS)) := by
  simp only [getGitStatus]
  rw [hs]

theorem firstLine_eq (out line0 : List Char) (rest : List (List Char))
    (hs : splitNL out = line0 :: rest) : firstLine out = line0 := by
  unfold firstLine
  rw [hs]

theorem getGitStatus_fields3 (out a b c : List Char)
    (h : fields (firstLine out) = [a, b, c]) :
    getGitStatus (some out) = (b, pendingS) := by
  cases hs : splitNL out with
  | nil => exact absurd hs (splitNL_ne_nil out)
  | cons line0 rest =>
    rw [firstLine_eq out line0 rest hs] at h
    have hparts : fields (trimSpace line0) = [a, b, c] := by
      rw [fields_trimSpace]; exact h
    rw [getGitStatus_some_eq out line0 rest hs, hparts]

theorem getGitStatus_not3 (out : List Char)
    (h : (fields (firstLine out)).length ≠ 3) :
    getGitStatus (some out) = ([], unknownS) := by
  cases hs : splitNL out with
  | nil => exact absurd hs (splitNL_ne_nil out)
  | cons line0 rest =>
    rw [firstLine_eq out line0 rest hs] at h
    have hparts : (fields (trimSpace line0)).length ≠ 3 := by
      rw [fields_trimSpace]; exact h
    rw [getGitStatus_some_eq out line0 rest hs]
    rcases hl : fields (trimSpace line0) with _ | ⟨a, _ | ⟨b, _ | ⟨c, _ | d⟩⟩⟩ <;>
      simp_all

theorem getGitStatus_status_cases (o : Option (List Char)) :
    (getGitStatus o).2 = pendingS ∨ (getGitStatus o).2 = unknownS := by
  cases o with
  | none => right; rfl
  | some output =>
    cases hs : splitNL output with
    | nil => exact absurd hs (splitNL_ne_nil output)
    | cons line0 rest =>
      rw [getGitStatus_some_eq output line0 rest hs]
      rcases fields (trimSpace line0) with _ | ⟨a, _ | ⟨b, _ | ⟨c, _ | d⟩⟩⟩
      · right; rfl
      · right; rfl
      · right; rfl
      · left; rfl
      · right; rfl

theorem updateStatus_no_match (d : List String) (st : List Char)
    (s : List RepoRecord) (h : ∀ r ∈ s, r.path ≠ d) :
    updateStatus d st s = s := by
  induction s with
  | nil => rfl
  | cons row rest ih =>
    have hrow : row.path ≠ d := h row (by simp)
    simp only [updateStatus, if_neg hrow]
    rw [ih fun r hr => h r (by simp [hr])]

theorem updateStatus_first_match (d : List String) (st : List Char)
    (s1 : List RepoRecord) (r : RepoRecord) (s2 : List RepoRecord)
    (h1 : ∀ x ∈ s1, x.path ≠ d) (hr : r.path = d) :
    updateStatus d st (s1 ++ r :: s2) =
      s1 ++ { r with status := st } :: s2 := by
  induction s1 with
  | nil => simp [updateStatus, hr]
  | cons row rest ih =>
    have hrow : row.path ≠ d := h1 row (by simp)
    simp only [List.cons_append, updateStatus, if_neg hrow, List.append_eq]
    rw [ih fun x hx => h1 x (by simp [hx])]

theorem pullRepositoryMid_eq (probe : List String → Option (List Char))
    (s : List RepoRecord) (d : List String) :
    pullRepositoryMid probe s d =
      s ++ [⟨d, (getGitStatus (probe d)).1, (getGitStatus (probe d)).2⟩] := rfl

theorem pullRepository_snd (probe : List String → Option (List Char))
    (pullOk : List String → Bool) (s : List RepoRecord) (d : List String)
    (h : ∀ r ∈ s, r.path ≠ d) :
    (pullRepository probe pullOk s d).2 =
      s ++ [⟨d, (getGitStatus (probe d)).1,
        if pullOk d then successS else failedS⟩] := by
  unfold pullRepository
  rw [pullRepositoryMid_eq]
  by_cases hp : pullOk d
  · simp only [hp, if_true]
    exact updateStatus_first_match d successS s _ [] h rfl
  · simp only [hp, if_false, Bool.false_eq_true]
    exact updateStatus_first_match d failedS s _ [] h rfl

theorem walkList_mem (pre : List String) (l : List FSTree) (r : List String)
    (h : r ∈ walkList pre l) : ∃ c ∈ l, r ∈ walkVisit pre c := by
  induction l with
  | nil => simp [walkList] at h
  | cons c cs ih =>
    simp only [walkList, List.mem_append] at h
    rcases h with h | h
    · exact ⟨c, by simp, h⟩
    · obtain ⟨c1, hc1, hr1⟩ := ih h
      exact ⟨c1, by simp [hc1], hr1⟩

/-- Every path spawned while walking entry `t` (whose parent path is `pre`)
is either `pre` itself — and then `t` is a directory named `.git` — or
extends `pre` with `t`'s own name. -/
theorem walkVisit_shape (t : FSTree) (pre r : List String)
    (h : r ∈ walkVisit pre t) :
    (r = pre ∧ ∃ ch, t = FSTree.dir ".git" ch) ∨
      ∃ rest, r = pre ++ fsName t :: rest := by
  match t with
  | .file n => simp [walkVisit] at h
  | .dir n children =>
    by_cases hn : n = ".git"
    · subst hn
      rw [walkVisit, if_pos rfl] at h
      exact Or.inl ⟨List.mem_singleton.mp h, children, rfl⟩
    · rw [walkVisit, if_neg hn] at h
      obtain ⟨c, hc, hr⟩ := walkList_mem _ _ _ h
      rcases walkVisit_shape c (pre ++ [n]) r hr with ⟨heq, _⟩ | ⟨rest, heq⟩
      · right; exact ⟨[], by simp [heq, fsName]⟩
      · right; exact ⟨fsName c :: rest, by simp [heq, fsName]⟩
termination_by sizeOf t
decreasing_by
  have := List.sizeOf_lt_of_mem hc
  simp only [FSTree.dir.sizeOf_spec]
  omega

theorem wellFormedList_mem (l : List FSTree) (h : wellFormedList l = true) :
    ∀ c ∈ l, wellFormed c = true := by
  induction l with
  | nil => simp
  | cons c cs ih =>
    simp only [wellFormedList, Bool.and_eq_true] at h
    intro x hx
    rcases List.mem_cons.mp hx with hx | hx
    · subst hx; exact h.1
    · exact ih h.2 x hx

theorem wellFormed_dir (n : String) (children : List FSTree)
    (h : wellFormed (FSTree.dir n children) = true) :
    (children.map fsName).Nodup ∧ wellFormedList children = true := by
  simp only [wellFormed, Bool.and_eq_true, decide_eq_true_eq] at h
  exact h

theorem walkList_nodup_of (pre : List String) (l : List FSTree)
    (hnd : (l.map fsName).Nodup)
    (h : ∀ c ∈ l, (walkVisit pre c).Nodup) : (walkList pre l).Nodup := by
  induction l with
  | nil => simp [walkList]
  | cons c cs ih =>
    simp only [walkList]
    rw [List.nodup_append]
    simp only [List.map_cons, List.nodup_cons] at hnd
    refine ⟨h c (by simp), ih hnd.2 (fun x hx => h x (by simp [hx])), ?_⟩
    intro r hr1 hr2
    obtain ⟨c1, hc1, hr1c⟩ := walkList_mem pre cs r hr2
    have hname : fsName c ≠ fsName c1 := by
      intro he
      exact hnd.1 (he ▸ List.mem_map_of_mem fsName hc1)
    rcases walkVisit_shape c pre r hr1 with ⟨he1, ch1, ht1⟩ | ⟨r1, he1⟩
    · rcases walkVisit_shape c1 pre r hr1c with ⟨he2, ch2, ht2⟩ | ⟨r2, he2⟩
      · apply hname
        subst ht1
        subst ht2
        rfl
      · rw [he1] at he2
        have hlen := congrArg List.length he2
        simp at hlen
    · rcases walkVisit_shape c1 pre r hr1c with ⟨he2, ch2, ht2⟩ | ⟨r2, he2⟩
      · rw [he2] at he1
        have hlen := congrArg List.length he1
        simp at hlen
      · rw [he1] at he2
        have hcc := List.append_cancel_left he2
        exact hname (List.cons.inj hcc).1

/-- Under sibling-name uniqueness, no repository path is spawned twice. -/
theorem walkVisit_nodup (t : FSTree) (pre : List String)
    (hwf : wellFormed t = true) : (walkVisit pre t).Nodup := by
  match t with
  | .file n => simp [walkVisit]
  | .dir n children =>
    by_cases hn : n = ".git"
    · subst hn
      simp [walkVisit]
    · rw [walkVisit, if_neg hn]
      obtain ⟨hnd, hwfl⟩ := wellFormed_dir n children hwf
      exact walkList_nodup_of (pre ++ [n]) children hnd
        (fun c hc => walkVisit_nodup c (pre ++ [n])
          (wellFormedList_mem children hwfl c hc))
termination_by sizeOf t
decreasing_by
  have := List.sizeOf_lt_of_mem hc
  simp only [FSTree.dir.sizeOf_spec]
  omega

/-! ## Claim theorems -/

/-- C1 (evaluation at the failing input): for a repository root `R`
containing both `.git` and a nested repository `sub/.git`, the walk reports
both `R` and `R/sub` — `R/sub` lies strictly under `R`, so the `SkipDir`
returned for `R/.git` did not prevent a nested repository under `R` from
being independently reported, contrary to the claim and to the source
comment "Skip traversing subdirectories within repositories". -/
theorem walk_reports_nested_repo_under_root :
    walkVisit [] (FSTree.dir "R"
      [FSTree.dir ".git" [], FSTree.dir "sub" [FSTree.dir ".git" []]]) =
      [["R"], ["R", "sub"]] ∧
    ["R", "sub"] = ["R"] ++ ["sub"] ∧ (["R", "sub"] : List String) ≠ ["R"] :=
  ⟨rfl, rfl, by decide⟩

/-- C2: when the first line of the remote-listing output has exactly three
whitespace-separated fields the Status Prober returns the second field with
`"Pending"`; with any other field count (including empty output), and when
the command itself fails, it returns `("", "Unknown")`. -/
theorem getGitStatus_parse_spec :
    (∀ out a b c : List Char, fields (firstLine out) = [a, b, c] →
      getGitStatus (some out) = (b, pendingS)) ∧
    (∀ out : List Char, (fields (firstLine out)).length ≠ 3 →
      getGitStatus (some out) = ([], unknownS)) ∧
    getGitStatus none = ([], unknownS) :=
  ⟨getGitStatus_fields3, getGitStatus_not3, rfl⟩

theorem getGitStatus_parse_spec_witness :
    getGitStatus (some "origin git@h:x (fetch)\nmore".toList) =
      ("git@h:x".toList, pendingS) ∧
    getGitStatus (some "".toList) = ([], unknownS) :=
  ⟨getGitStatus_parse_spec.1 _ "origin".toList "git@h:x".toList
      "(fetch)".toList (by decide),
    getGitStatus_parse_spec.2.1 _ (by decide)⟩

/-- C3 (counterexample): when the remote probe fails, the record is created
with status `"Unknown"`, which is none of `Pending`, `Success`, `Failed` —
so over its lifetime the status field is not confined to that three-value
set. -/
theorem status_unknown_outside_claimed_set :
    pullRepositoryMid (fun _ => none) [] ["r"] =
      [⟨["r"], [], unknownS⟩] ∧
    unknownS ≠ pendingS ∧ unknownS ≠ successS ∧ unknownS ≠ failedS :=
  ⟨rfl, by decide, by decide, by decide⟩

/-- C3 (amended): over its lifetime a record's status takes values only in
`{Pending, Unknown, Success, Failed}`: it is created with `Pending` or
`Unknown` at discovery time, and the single post-sync `updateStatus` call
leaves it `Success` or `Failed`. -/
theorem record_status_lifecycle :
    ∀ (probe : List String → Option (List Char)) (pullOk : List String → Bool)
      (s : List RepoRecord) (d : List String), (∀ r ∈ s, r.path ≠ d) →
      ((getGitStatus (probe d)).2 = pendingS ∨
        (getGitStatus (probe d)).2 = unknownS) ∧
      pullRepositoryMid probe s d =
        s ++ [⟨d, (getGitStatus (probe d)).1, (getGitStatus (probe d)).2⟩] ∧
      (pullRepository probe pullOk s d).2 =
        s ++ [⟨d, (getGitStatus (probe d)).1,
          if pullOk d then successS else failedS⟩] :=
  fun probe pullOk s d h =>
    ⟨getGitStatus_status_cases (probe d), pullRepositoryMid_eq probe s d,
      pullRepository_snd probe pullOk s d h⟩

theorem record_status_lifecycle_witness :
    ((getGitStatus none).2 = pendingS ∨ (getGitStatus none).2 = unknownS) ∧
    pullRepositoryMid (fun _ => none) [] ["r"] =
      [] ++ [⟨["r"], (getGitStatus none).1, (getGitStatus none).2⟩] ∧
    (pullRepository (fun _ => none) (fun _ => true) [] ["r"]).2 =
      [] ++ [⟨["r"], (getGitStatus none).1,
        if true then successS else failedS⟩] :=
  record_status_lifecycle (fun _ => none) (fun _ => true) [] ["r"] (by simp)

/-- C4: a failed pull sets the repository's status to `Failed`, a successful
pull sets it to `Success`, and after the task completes the record with that
repository's path has status `Success` or `Failed`. -/
theorem pull_outcome_sets_final_status :
    ∀ (probe : List String → Option (List Char)) (pullOk : List String → Bool)
      (s : List RepoRecord) (d : List String), (∀ r ∈ s, r.path ≠ d) →
      (pullOk d = false → (pullRepository probe pullOk s d).2 =
        s ++ [⟨d, (getGitStatus (probe d)).1, failedS⟩]) ∧
      (pullOk d = true → (pullRepository probe pullOk s d).2 =
        s ++ [⟨d, (getGitStatus (probe d)).1, successS⟩]) ∧
      (∀ r ∈ (pullRepository probe pullOk s d).2, r.path = d →
        r.status = successS ∨ r.status = failedS) := by
  intro probe pullOk s d h
  have heq := pullRepository_snd probe pullOk s d h
  refine ⟨?_, ?_, ?_⟩
  · intro hf
    rw [heq, hf]
    simp
  · intro ht
    rw [heq, ht]
    simp
  · intro r hr hpath
    rw [heq] at hr
    rcases List.mem_append.mp hr with hr | hr
    · exact absurd hpath (h r hr)
    · have hre := List.mem_singleton.mp hr
      by_cases hp : pullOk d
      · left; rw [hre]; simp [hp]
      · right; rw [hre]; simp [hp]

theorem pull_outcome_sets_final_status_witness :
    (pullRepository (fun _ => none) (fun _ => false) [] ["r"]).2 =
      [] ++ [⟨["r"], (getGitStatus none).1, failedS⟩] ∧
    (pullRepository (fun _ => none) (fun _ => true) [] ["r"]).2 =
      [] ++ [⟨["r"], (getGitStatus none).1, successS⟩] :=
  ⟨(pull_outcome_sets_final_status (fun _ => none) (fun _ => false) []
      ["r"] (by simp)).1 rfl,
    (pull_outcome_sets_final_status (fun _ => none) (fun _ => true) []
      ["r"] (by simp)).2.1 rfl⟩

/-- C6: `updateStatus` overwrites exactly the status field of the first
record whose path matches (keeping its path and remote and every other
record unchanged), and is a silent no-op when no record matches. -/
theorem updateStatus_frame :
    (∀ (s : List RepoRecord) (d : List String) (st : List Char),
      (∀ r ∈ s, r.path ≠ d) → updateStatus d st s = s) ∧
    (∀ (s1 : List RepoRecord) (r : RepoRecord) (s2 : List RepoRecord)
      (d : List String) (st : List Char),
      (∀ x ∈ s1, x.path ≠ d) → r.path = d →
      updateStatus d st (s1 ++ r :: s2) =
        s1 ++ { r with status := st } :: s2) :=
  ⟨fun s d st h => updateStatus_no_match d st s h,
    fun s1 r s2 d st h1 hr => updateStatus_first_match d st s1 r s2 h1 hr⟩

theorem updateStatus_frame_witness :
    updateStatus ["z"] successS [⟨["a"], [], pendingS⟩] =
      [⟨["a"], [], pendingS⟩] ∧
    updateStatus ["a"] successS
      ([⟨["b"], [], pendingS⟩] ++
        (⟨["a"], ['x'], pendingS⟩ : RepoRecord) :: [⟨["a"], [], unknownS⟩]) =
      [⟨["b"], [], pendingS⟩] ++
        (⟨["a"], ['x'], successS⟩ : RepoRecord) :: [⟨["a"], [], unknownS⟩] :=
  ⟨updateStatus_frame.1 _ _ _ (by decide),
    updateStatus_frame.2 _ _ _ _ _ (by decide) rfl⟩

/-- C9: whenever the Status Prober reports `"Pending"`, the remote it
returns is non-empty (it is the second of three non-empty fields). -/
theorem pending_implies_nonempty_remote :
    ∀ (o : Option (List Char)) (r : List Char),
      getGitStatus o = (r, pendingS) → r ≠ [] := by
  intro o r h
  cases o with
  | none =>
    have : unknownS = pendingS := congrArg Prod.snd h
    exact absurd this (by decide)
  | some output =>
    cases hs : splitNL output with
    | nil => exact absurd hs (splitNL_ne_nil output)
    | cons line0 rest =>
      rw [getGitStatus_some_eq output line0 rest hs] at h
      rcases hl : fields (trimSpace line0) with _ | ⟨a, _ | ⟨b, _ | ⟨cc, _ | ⟨dd, tl⟩⟩⟩⟩ <;>
        rw [hl] at h
      · have h2 : (([] : List Char), unknownS) = (r, pendingS) := h
        exact absurd ((Prod.mk.injEq _ _ _ _).mp h2).2 (by decide)
      · have h2 : (([] : List Char), unknownS) = (r, pendingS) := h
        exact absurd ((Prod.mk.injEq _ _ _ _).mp h2).2 (by decide)
      · have h2 : (([] : List Char), unknownS) = (r, pendingS) := h
        exact absurd ((Prod.mk.injEq _ _ _ _).mp h2).2 (by decide)
      · have h2 : (b, pendingS) = (r, pendingS) := h
        have hrb : b = r := ((Prod.mk.injEq _ _ _ _).mp h2).1
        have hbmem : b ∈ fields (trimSpace line0) := by rw [hl]; simp
        have hne := fieldsAux_ne_nil (trimSpace line0) [] b hbmem
        exact hrb ▸ hne
      · have h2 : (([] : List Char), unknownS) = (r, pendingS) := h
        exact absurd ((Prod.mk.injEq _ _ _ _).mp h2).2 (by decide)

theorem pending_implies_nonempty_remote_witness :
    ("git@h:x".toList : List Char) ≠ [] :=
  pending_implies_nonempty_remote (some "origin git@h:x (fetch)".toList)
    "git@h:x".toList (by decide)

/-- C10: a `.git` entry that is a plain file does not make its parent a
repository root: walking the parent (whose children have distinct names, as
on a real filesystem) never reports the parent's own path. -/
theorem git_file_parent_not_repo_root :
    ∀ (pre : List String) (n : String) (children : List FSTree),
      (children.map fsName).Nodup → FSTree.file ".git" ∈ children →
      pre ++ [n] ∉ walkVisit pre (FSTree.dir n children) := by
  intro pre n children hnd hfile h
  by_cases hn : n = ".git"
  · subst hn
    rw [walkVisit, if_pos rfl] at h
    have hpp := List.mem_singleton.mp h
    have hlen := congrArg List.length hpp
    simp at hlen
  · rw [walkVisit, if_neg hn] at h
    obtain ⟨c, hc, hr⟩ := walkList_mem _ _ _ h
    rcases walkVisit_shape c (pre ++ [n]) (pre ++ [n]) hr with
      ⟨heq, ch, ht⟩ | ⟨rest, heq⟩
    · have h1 : fsName c = ".git" := by rw [ht]; rfl
      have hinj := List.inj_on_of_nodup_map hnd
      have hcf : c = FSTree.file ".git" := hinj hc hfile (by rw [h1]; rfl)
      rw [ht] at hcf
      exact FSTree.noConfusion hcf
    · have hlen := congrArg List.length heq
      simp at hlen

theorem git_file_parent_not_repo_root_witness :
    (([FSTree.file ".git", FSTree.dir "code" []].map fsName)).Nodup ∧
    FSTree.file ".git" ∈ [FSTree.file ".git", FSTree.dir "code" []] ∧
    [] ++ ["p"] ∉ walkVisit []
      (FSTree.dir "p" [FSTree.file ".git", FSTree.dir "code" []]) :=
  ⟨by decide, List.mem_cons_self _ _,
    git_file_parent_not_repo_root [] "p" _ (by decide)
      (List.mem_cons_self _ _)⟩

theorem count_eq_one_of_nodup_mem {α : Type} [BEq α] [LawfulBEq α]
    {l : List α} {a : α} (hn : l.Nodup) (ha : a ∈ l) : l.count a = 1 := by
  induction l with
  | nil => simp at ha
  | cons x xs ih =>
    obtain ⟨hx, hxs⟩ := List.nodup_cons.mp hn
    rcases List.mem_cons.mp ha with rfl | ha2
    · rw [List.count_cons, List.count_eq_zero_of_not_mem hx]
      simp
    · have hne : a ≠ x := by rintro rfl; exact hx ha2
      rw [List.count_cons, ih hxs ha2]
      simp [hne, Ne.symm hne]

theorem runAll_trace_count (probe : List String → Option (List Char))
    (pullOk : List String → Bool) (repos : List (List String)) :
    ∀ (s : List RepoRecord) (d : List String),
      ((runAll probe pullOk repos s).1.count (GitCmd.pull d)) =
        repos.count d := by
  induction repos with
  | nil => intro s d; simp [runAll]
  | cons r rs ih =>
    intro s d
    simp only [runAll]
    rw [List.count_append, ih]
    by_cases hrd : r = d
    · subst hrd
      simp [List.count_cons, pullRepository]
      omega
    · simp [List.count_cons, hrd, pullRepository]

/-- C5: on a well-formed tree every discovered repository path gets exactly
one `git pull` invocation over the whole run, whatever the probe and pull
outcomes are — in particular a failed or malformed probe never suppresses
the pull. -/
theorem pull_invoked_once_per_discovered_repo :
    ∀ (tree : FSTree) (probe : List String → Option (List Char))
      (pullOk : List String → Bool), wellFormed tree = true →
      ∀ d ∈ walkVisit [] tree,
        ((runAll probe pullOk (walkVisit [] tree) []).1.count
          (GitCmd.pull d)) = 1 := by
  intro tree probe pullOk hwf d hd
  rw [runAll_trace_count]
  exact count_eq_one_of_nodup_mem (walkVisit_nodup tree [] hwf) hd

theorem pull_invoked_once_per_discovered_repo_witness :
    wellFormed (FSTree.dir "root" [FSTree.dir "a" [FSTree.dir ".git" []]]) =
      true ∧
    ["root", "a"] ∈ walkVisit []
      (FSTree.dir "root" [FSTree.dir "a" [FSTree.dir ".git" []]]) ∧
    ((runAll (fun _ => none) (fun _ => true)
      (walkVisit []
        (FSTree.dir "root" [FSTree.dir "a" [FSTree.dir ".git" []]])) []).1.count
          (GitCmd.pull ["root", "a"])) = 1 :=
  ⟨by decide, by decide,
    pull_invoked_once_per_discovered_repo _ (fun _ => none) (fun _ => true)
      (by decide) _ (by decide)⟩

/-- C7: the process exits 0 exactly when setup succeeded (valid log level
and exactly one positional argument), however many per-repository probes or
pulls failed; on setup failure the exit code is non-zero and no traversal
has happened (empty summary). -/
theorem exit_code_spec :
    ∀ (logLevel : String) (args : List String) (tree : FSTree)
      (probe : List String → Option (List Char)) (pullOk : List String → Bool),
      ((programRun logLevel args tree probe pullOk).1 = 0 ↔
        (parseLevelOk logLevel = true ∧ args.length = 1)) ∧
      (parseLevelOk logLevel = false ∨ args.length ≠ 1 →
        (programRun logLevel args tree probe pullOk).2 = []) := by
  intro logLevel args tree probe pullOk
  unfold programRun
  by_cases hl : parseLevelOk logLevel = false
  · simp [hl]
  · have hl2 : parseLevelOk logLevel = true := by
      revert hl; cases parseLevelOk logLevel <;> simp
    by_cases ha : args.length = 1
    · simp [hl2, ha]
    · simp [hl2, ha]

theorem exit_code_spec_witness :
    (programRun "error" ["d"] (FSTree.dir "R" [FSTree.dir ".git" []])
      (fun _ => none) (fun _ => false)).1 = 0 ∧
    (programRun "bogus" ["d"] (FSTree.dir "R" [FSTree.dir ".git" []])
      (fun _ => none) (fun _ => false)).1 ≠ 0 ∧
    (programRun "bogus" ["d"] (FSTree.dir "R" [FSTree.dir ".git" []])
      (fun _ => none) (fun _ => false)).2 = [] := by
  have h1 := exit_code_spec "error" ["d"]
    (FSTree.dir "R" [FSTree.dir ".git" []]) (fun _ => none) (fun _ => false)
  have h2 := exit_code_spec "bogus" ["d"]
    (FSTree.dir "R" [FSTree.dir ".git" []]) (fun _ => none) (fun _ => false)
  refine ⟨h1.1.mpr ⟨by decide, rfl⟩, ?_, h2.2 (Or.inl (by decide))⟩
  intro h0
  exact absurd (h2.1.mp h0).1 (by decide)

theorem noAppAfterUpd_cons (op : SyncOp) (rest : List SyncOp)
    (h : noAppAfterUpd (op :: rest) = true) :
    noAppAfterUpd rest = true ∧
      (∀ k, op = SyncOp.update k → SyncOp.append k ∉ rest) := by
  simp only [noAppAfterUpd, Bool.and_eq_true] at h
  refine ⟨h.2, ?_⟩
  intro k hop
  subst hop
  have h1 := h.1
  simp only [Bool.not_eq_true'] at h1
  simpa using h1

theorem stateOf_append (tasks : Nat → TaskSpec) (order : List Nat)
    (upd : Nat → Bool) (k : Nat) (hupd : upd k = false) :
    stateOf tasks order upd ++
      [⟨(tasks k).dir, (tasks k).remote, (tasks k).initStatus⟩] =
      stateOf tasks (order ++ [k]) upd := by
  simp only [stateOf, List.map_append, List.map_cons, List.map_nil, hupd]
  simp

theorem updateStatus_stateOf (tasks : Nat → TaskSpec) (order : List Nat)
    (upd : Nat → Bool) (k : Nat)
    (hmem : k ∈ order) (hnd : order.Nodup)
    (hinj : ∀ j ∈ order, (tasks j).dir = (tasks k).dir → j = k) :
    updateStatus (tasks k).dir (tasks k).finalStatus
        (stateOf tasks order upd) =
      stateOf tasks order (fun j => if j = k then true else upd j) := by
  induction order with
  | nil => simp at hmem
  | cons j0 rest ih =>
    obtain ⟨hj0, hrest⟩ := List.nodup_cons.mp hnd
    by_cases hjk : j0 = k
    · subst hjk
      simp only [stateOf, List.map_cons]
      rw [updateStatus, if_pos rfl]
      simp only [List.cons.injEq]
      constructor
      · simp
      · apply List.map_congr_left
        intro j hj
        have hne : j ≠ j0 := fun he => hj0 (he ▸ hj)
        simp [hne]
    · have hpath : (tasks j0).dir ≠ (tasks k).dir := by
        intro he
        exact hjk (hinj j0 (by simp) he)
      have hmem2 : k ∈ rest := by
        rcases List.mem_cons.mp hmem with he | hm
        · exact absurd he.symm hjk
        · exact hm
      have ihh := ih hmem2 hrest (fun j hj he => hinj j (by simp [hj]) he)
      simp only [stateOf] at ihh ⊢
      simp only [List.map_cons]
      rw [updateStatus, if_neg hpath, ihh]
      congr 1
      simp [hjk]

/-- Main invariant for interleaved goroutine executions: from a state holding
the records of the goroutines in `order` (with update-status `upd`), a valid
remaining schedule drives the summary to one record per goroutine, each with
its final status. -/
theorem runSched_correct (N : Nat) (tasks : Nat → TaskSpec)
    (hinj : ∀ i, i < N → ∀ j, j < N → (tasks i).dir = (tasks j).dir → i = j) :
    ∀ (sched : List SyncOp) (order : List Nat) (upd : Nat → Bool),
      order.Nodup → (∀ k ∈ order, k < N) → (∀ k, upd k = true → k ∈ order) →
      (∀ k, k < N → sched.count (SyncOp.append k) =
        (if k ∈ order then 0 else 1)) →
      (∀ k, k < N → sched.count (SyncOp.update k) =
        (if upd k = true then 0 else 1)) →
      (∀ op ∈ sched, SyncOp.idx op < N) →
      noAppAfterUpd sched = true →
      ∃ orderF : List Nat, orderF.Nodup ∧
        (∀ j, j ∈ orderF ↔ (j ∈ order ∨ j < N)) ∧
        runSched tasks sched (stateOf tasks order upd) =
          orderF.map (fun j =>
            ⟨(tasks j).dir, (tasks j).remote, (tasks j).finalStatus⟩) := by
  intro sched
  induction sched with
  | nil =>
    intro order upd hnd hbound hupdmem hca hcu hops hord
    refine ⟨order, hnd, ?_, ?_⟩
    · intro j
      constructor
      · intro hj; exact Or.inl hj
      · intro hj
        rcases hj with hj | hj
        · exact hj
        · have hc := hca j hj
          simp only [List.count_nil] at hc
          by_contra hno
          rw [if_neg hno] at hc
          exact absurd hc.symm one_ne_zero
    · show stateOf tasks order upd = _
      unfold stateOf
      apply List.map_congr_left
      intro j hj
      have hjN := hbound j hj
      have hu := hcu j hjN
      simp only [List.count_nil] at hu
      by_cases hupd : upd j = true
      · simp [hupd]
      · rw [if_neg hupd] at hu
        exact absurd hu.symm one_ne_zero
  | cons op rest ih =>
    intro order upd hnd hbound hupdmem hca hcu hops hord
    obtain ⟨hordrest, hordhead⟩ := noAppAfterUpd_cons op rest hord
    cases op with
    | append k =>
      have hkN : k < N := by
        have := hops (SyncOp.append k) (by simp)
        simpa [SyncOp.idx] using this
      have hck := hca k hkN
      simp only [List.count_cons] at hck
      simp at hck
      have hkno : k ∉ order := by
        intro hmem
        rw [if_pos hmem] at hck
        omega
      rw [if_neg hkno] at hck
      have hcrest : rest.count (SyncOp.append k) = 0 := by omega
      have hupdk : upd k = false := by
        by_contra hu
        simp only [Bool.not_eq_false] at hu
        exact hkno (hupdmem k hu)
      have happly : applyOp tasks (stateOf tasks order upd) (SyncOp.append k) =
          stateOf tasks (order ++ [k]) upd := by
        simp only [applyOp]
        exact stateOf_append tasks order upd k hupdk
      obtain ⟨orderF, hndF, hiffF, heqF⟩ := ih (order ++ [k]) upd
        (by
          rw [List.nodup_append]
          exact ⟨hnd, List.nodup_singleton k,
            fun a ha hak => hkno ((List.mem_singleton.mp hak) ▸ ha)⟩)
        (by
          intro j hj
          rcases List.mem_append.mp hj with h | h
          · exact hbound j h
          · rw [List.mem_singleton] at h
            subst h
            exact hkN)
        (fun j hu => List.mem_append.mpr (Or.inl (hupdmem j hu)))
        (by
          intro j hjN
          have hcj := hca j hjN
          simp only [List.count_cons] at hcj
          by_cases hjk : j = k
          · subst hjk
            rw [if_pos (by simp)]
            exact hcrest
          · have hmemiff : (j ∈ order ++ [k]) ↔ j ∈ order := by simp [hjk]
            rw [if_congr hmemiff rfl rfl]
            simpa [hjk, Ne.symm hjk] using hcj)
        (by
          intro j hjN
          have hcj := hcu j hjN
          simp only [List.count_cons] at hcj
          simpa using hcj)
        (fun o ho => hops o (by simp [ho]))
        hordrest
      refine ⟨orderF, hndF, ?_, ?_⟩
      · intro j
        rw [hiffF j]
        constructor
        · rintro (hj | hj)
          · rcases List.mem_append.mp hj with h | h
            · exact Or.inl h
            · right
              rw [List.mem_singleton] at h
              subst h
              exact hkN
          · exact Or.inr hj
        · rintro (hj | hj)
          · exact Or.inl (List.mem_append.mpr (Or.inl hj))
          · exact Or.inr hj
      · rw [show runSched tasks (SyncOp.append k :: rest)
            (stateOf tasks order upd) =
            runSched tasks rest (applyOp tasks (stateOf tasks order upd)
              (SyncOp.append k)) from rfl, happly]
        exact heqF
    | update k =>
      have hkN : k < N := by
        have := hops (SyncOp.update k) (by simp)
        simpa [SyncOp.idx] using this
      have hck := hcu k hkN
      simp only [List.count_cons] at hck
      simp at hck
      have hupdk : upd k = false := by
        by_contra hu
        simp only [Bool.not_eq_false] at hu
        rw [if_pos hu] at hck
        omega
      rw [if_neg (by simp [hupdk])] at hck
      have hcrest : rest.count (SyncOp.update k) = 0 := by omega
      have hkmem : k ∈ order := by
        by_contra hno
        have hcak := hca k hkN
        simp only [List.count_cons] at hcak
        rw [if_neg hno] at hcak
        simp at hcak
        have hmemrest : SyncOp.append k ∈ rest := by
          rw [← List.count_pos_iff]
          omega
        exact hordhead k rfl hmemrest
      have happly : applyOp tasks (stateOf tasks order upd) (SyncOp.update k) =
          stateOf tasks order (fun j => if j = k then true else upd j) := by
        simp only [applyOp]
        exact updateStatus_stateOf tasks order upd k hkmem hnd
          (fun j hj he => hinj j (hbound j hj) k hkN he)
      obtain ⟨orderF, hndF, hiffF, heqF⟩ := ih order
        (fun j => if j = k then true else upd j)
        hnd hbound
        (by
          intro j hu
          by_cases hjk : j = k
          · subst hjk
            exact hkmem
          · simp only [if_neg hjk] at hu
            exact hupdmem j hu)
        (by
          intro j hjN
          have hcj := hca j hjN
          simp only [List.count_cons] at hcj
          simpa using hcj)
        (by
          intro j hjN
          by_cases hjk : j = k
          · subst hjk
            rw [if_pos (by simp)]
            exact hcrest
          · have hcj := hcu j hjN
            simp only [List.count_cons] at hcj
            simp only [if_neg hjk]
            simpa [hjk, Ne.symm hjk] using hcj)
        (fun o ho => hops o (by simp [ho]))
        hordrest
      refine ⟨orderF, hndF, hiffF, ?_⟩
      rw [show runSched tasks (SyncOp.update k :: rest)
          (stateOf tasks order upd) =
          runSched tasks rest (applyOp tasks (stateOf tasks order upd)
            (SyncOp.update k)) from rfl, happly]
      exact heqF

/-- C8: for `N` goroutines launched for pairwise-distinct repository paths,
every interleaving of their mutex-protected critical sections (each
goroutine's append and update acquiring the lock exactly once each, append
before update) leaves exactly `N` records in the final collection, with
pairwise-distinct paths, and each goroutine's record present with its probed
remote and final status — no lost appends, no lost status updates, no
duplicate records. -/
theorem concurrent_sync_produces_n_records :
    ∀ (N : Nat) (dirs : Nat → List String)
      (probe : List String → Option (List Char)) (pullOk : List String → Bool)
      (sched : List SyncOp),
      (∀ i, i < N → ∀ j, j < N → dirs i = dirs j → i = j) →
      (∀ k, k < N → sched.count (SyncOp.append k) = 1) →
      (∀ k, k < N → sched.count (SyncOp.update k) = 1) →
      (∀ op ∈ sched, SyncOp.idx op < N) →
      noAppAfterUpd sched = true →
      (runSched (fun k => mkTask probe pullOk (dirs k)) sched []).length = N ∧
      ((runSched (fun k => mkTask probe pullOk (dirs k)) sched []).map
        RepoRecord.path).Nodup ∧
      (∀ k, k < N →
        (⟨dirs k, (getGitStatus (probe (dirs k))).1,
          if pullOk (dirs k) then successS else failedS⟩ : RepoRecord) ∈
          runSched (fun k => mkTask probe pullOk (dirs k)) sched []) := by
  intro N dirs probe pullOk sched hinj hca hcu hops hord
  have hinj2 : ∀ i, i < N → ∀ j, j < N →
      ((fun k => mkTask probe pullOk (dirs k)) i).dir =
        ((fun k => mkTask probe pullOk (dirs k)) j).dir → i = j := by
    intro i hi j hj h
    exact hinj i hi j hj h
  obtain ⟨orderF, hndF, hiffF, heqF⟩ :=
    runSched_correct N (fun k => mkTask probe pullOk (dirs k)) hinj2 sched []
      (fun _ => false) List.nodup_nil (by simp) (by simp)
      (by intro k hk; simpa using hca k hk)
      (by intro k hk; simpa using hcu k hk)
      hops hord
  have hiff : ∀ j, j ∈ orderF ↔ j < N := by
    intro j
    rw [hiffF j]
    simp
  have hperm : orderF.Perm (List.range N) := by
    rw [List.perm_ext_iff_of_nodup hndF (List.nodup_range N)]
    intro a
    rw [hiff a, List.mem_range]
  have heqF2 : runSched (fun k => mkTask probe pullOk (dirs k)) sched [] =
      orderF.map (fun j =>
        ⟨dirs j, (getGitStatus (probe (dirs j))).1,
          if pullOk (dirs j) then successS else failedS⟩) := heqF
  refine ⟨?_, ?_, ?_⟩
  · rw [heqF2, List.length_map, hperm.length_eq, List.length_range]
  · rw [heqF2, List.map_map]
    apply List.Nodup.map_on ?_ hndF
    intro x hx y hy hxy
    exact hinj x ((hiff x).mp hx) y ((hiff y).mp hy) hxy
  · intro k hk
    rw [heqF2]
    exact List.mem_map_of_mem _ ((hiff k).mpr hk)

theorem concurrent_sync_produces_n_records_witness :
    (runSched (fun k => mkTask (fun _ => none) (fun _ => true)
      (if k = 0 then ["a"] else ["b"]))
      [SyncOp.append 0, SyncOp.append 1, SyncOp.update 1, SyncOp.update 0]
      []).length = 2 ∧
    ((runSched (fun k => mkTask (fun _ => none) (fun _ => true)
      (if k = 0 then ["a"] else ["b"]))
      [SyncOp.append 0, SyncOp.append 1, SyncOp.update 1, SyncOp.update 0]
      []).map RepoRecord.path).Nodup ∧
    (⟨["a"], [], successS⟩ : RepoRecord) ∈
      runSched (fun k => mkTask (fun _ => none) (fun _ => true)
        (if k = 0 then ["a"] else ["b"]))
        [SyncOp.append 0, SyncOp.append 1, SyncOp.update 1, SyncOp.update 0]
        [] ∧
    (⟨["b"], [], successS⟩ : RepoRecord) ∈
      runSched (fun k => mkTask (fun _ => none) (fun _ => true)
        (if k = 0 then ["a"] else ["b"]))
        [SyncOp.append 0, SyncOp.append 1, SyncOp.update 1, SyncOp.update 0]
        [] := by
  have h := concurrent_sync_produces_n_records 2
    (fun k => if k = 0 then ["a"] else ["b"]) (fun _ => none) (fun _ => true)
    [SyncOp.append 0, SyncOp.append 1, SyncOp.update 1, SyncOp.update 0]
    (by intro i hi j hj; interval_cases i <;> interval_cases j <;> decide)
    (by intro k hk; interval_cases k <;> decide)
    (by intro k hk; interval_cases k <;> decide)
    (by decide)
    (by decide)
  exact ⟨h.1, h.2.1, h.2.2 0 (by omega), h.2.2 1 (by omega)⟩
